import Mathlib

/-!
Verification of the calendar application's event store, date codec,
query/filter engine and grouping model.

The Python source (`calendar_app.py`) is embedded shallowly:

* `Date`, `adapt_date`, `convert_date`, `format_date` model the date codec
  (`adapt_date` / `convert_date` registered with sqlite, `format_date` the
  display formatter using `strftime('%d %B, %Y')`, where `%d`, `%m` are
  two-digit zero padded and `%Y` is the four-digit year, the padded form
  documented for Python's `datetime.strftime`; `strptime('%Y-%m-%d')`
  requires exactly four year digits, one-or-two digit month and day, and
  validates calendar ranges including leap years).
* The sqlite table `events(id INTEGER PRIMARY KEY, title, event_date, category)`
  is modelled as a list of `Event` in rowid order (`DBWf`: ids strictly
  increasing along the list, which insertion with `max id + 1` and deletion
  preserve).  `ORDER BY event_date` is modelled as a stable sort on that
  rowid-ordered list.  Every operation of `execute_query` takes a `fail`
  flag modelling a raised `sqlite3.Error`: the handler logs and falls
  through, so a failed write leaves the table unchanged and a failed read
  returns `none` (Python `None`), not an empty list.
* The filter chain of `apply_advanced_search` (category / from_date /
  to_date `continue` tests) and the lowered-substring test of
  `refresh_events` are translated predicate by predicate; grouping uses the
  `dict.setdefault(...).append(...)` pattern with dict insertion order.
-/

/-- A calendar date (year, month, day), no time component. -/
structure Date where
  year : Nat
  month : Nat
  day : Nat
deriving DecidableEq

/-- Strict lexicographic order on dates, as Python `datetime.date` comparison
and as comparison of canonical `YYYY-MM-DD` strings. -/
def Date.lt (a b : Date) : Prop :=
  a.year < b.year ∨ (a.year = b.year ∧
    (a.month < b.month ∨ (a.month = b.month ∧ a.day < b.day)))

instance (a b : Date) : Decidable (Date.lt a b) := by
  unfold Date.lt; infer_instance

/-- Reflexive closure of `Date.lt`. -/
def Date.le (a b : Date) : Prop := Date.lt a b ∨ a = b

instance (a b : Date) : Decidable (Date.le a b) := by
  unfold Date.le; infer_instance

theorem Date.lt_trans {a b c : Date} (h1 : Date.lt a b) (h2 : Date.lt b c) :
    Date.lt a c := by
  cases a; cases b; cases c
  simp only [Date.lt] at *
  omega

theorem Date.not_lt {a b : Date} : ¬ Date.lt a b ↔ Date.le b a := by
  cases a; cases b
  simp only [Date.lt, Date.le, Date.mk.injEq]
  omega

theorem Date.le_of_lt {a b : Date} (h : Date.lt a b) : Date.le a b := Or.inl h

theorem Date.le_trans {a b c : Date} (h1 : Date.le a b) (h2 : Date.le b c) :
    Date.le a c := by
  cases a; cases b; cases c
  simp only [Date.lt, Date.le, Date.mk.injEq] at *
  omega

/-- Gregorian leap-year predicate, as Python's `calendar`/`datetime` use. -/
def isLeap (y : Nat) : Bool :=
  (y % 4 == 0 && y % 100 != 0) || y % 400 == 0

/-- Number of days of month `m` in year `y`. -/
def daysInMonth (y m : Nat) : Nat :=
  if m = 2 then (if isLeap y then 29 else 28)
  else if m = 4 ∨ m = 6 ∨ m = 9 ∨ m = 11 then 30
  else 31

/-- A valid calendar date in Python's `datetime.date` range. -/
def Date.Valid (d : Date) : Prop :=
  1 ≤ d.year ∧ d.year ≤ 9999 ∧ 1 ≤ d.month ∧ d.month ≤ 12 ∧
    1 ≤ d.day ∧ d.day ≤ daysInMonth d.year d.month

instance (d : Date) : Decidable d.Valid := by
  unfold Date.Valid; infer_instance

/-- Numeric value of a decimal digit character. -/
def digitVal (c : Char) : Nat := c.toNat - 48

theorem digitVal_digitChar (k : Nat) (h : k < 10) :
    digitVal (Nat.digitChar k) = k := by
  have H : ∀ j < 10, digitVal (Nat.digitChar j) = j := by decide
  exact H k h

theorem isDigit_digitChar (k : Nat) (h : k < 10) :
    (Nat.digitChar k).isDigit = true := by
  have H : ∀ j < 10, (Nat.digitChar j).isDigit = true := by decide
  exact H k h

/-- The two decimal digits of `n < 100`, most significant first
(`strftime` zero padding for `%d` and `%m`). -/
def pad2 (n : Nat) : List Nat := [n / 10 % 10, n % 10]

/-- The four decimal digits of `n < 10000`, most significant first
(`strftime` `%Y`). -/
def pad4 (n : Nat) : List Nat :=
  [n / 1000 % 10, n / 100 % 10, n / 10 % 10, n % 10]

/-- Digit values rendered as characters. -/
def padChars (l : List Nat) : List Char := l.map Nat.digitChar

/-- Parse a digit-character run as a decimal number,
most significant digit first. -/
def readNat (cs : List Char) : Nat :=
  cs.foldl (fun a c => 10 * a + digitVal c) 0

theorem readNat_pad2 (n : Nat) (h : n < 100) :
    readNat (padChars (pad2 n)) = n := by
  have h1 : n / 10 % 10 < 10 := Nat.mod_lt _ (by omega)
  have h2 : n % 10 < 10 := Nat.mod_lt _ (by omega)
  simp only [readNat, padChars, pad2, List.map, List.foldl,
    digitVal_digitChar _ h1, digitVal_digitChar _ h2]
  omega

theorem readNat_pad4 (n : Nat) (h : n < 10000) :
    readNat (padChars (pad4 n)) = n := by
  have h1 : n / 1000 % 10 < 10 := Nat.mod_lt _ (by omega)
  have h2 : n / 100 % 10 < 10 := Nat.mod_lt _ (by omega)
  have h3 : n / 10 % 10 < 10 := Nat.mod_lt _ (by omega)
  have h4 : n % 10 < 10 := Nat.mod_lt _ (by omega)
  simp only [readNat, padChars, pad4, List.map, List.foldl,
    digitVal_digitChar _ h1, digitVal_digitChar _ h2,
    digitVal_digitChar _ h3, digitVal_digitChar _ h4]
  omega

theorem isDigit_padChars_pad2 (n : Nat) :
    ∀ c ∈ padChars (pad2 n), c.isDigit = true := by
  intro c hc
  simp only [padChars, pad2, List.map, List.mem_cons, List.not_mem_nil,
    or_false] at hc
  rcases hc with h | h <;>
    (subst h; exact isDigit_digitChar _ (Nat.mod_lt _ (by omega)))

theorem isDigit_padChars_pad4 (n : Nat) :
    ∀ c ∈ padChars (pad4 n), c.isDigit = true := by
  intro c hc
  simp only [padChars, pad4, List.map, List.mem_cons, List.not_mem_nil,
    or_false] at hc
  rcases hc with h | h | h | h <;>
    (subst h; exact isDigit_digitChar _ (Nat.mod_lt _ (by omega)))

/-- Characters produced by `adapt_date`: the canonical `YYYY-MM-DD` form. -/
def encodeChars (d : Date) : List Char :=
  padChars (pad4 d.year) ++ '-' :: padChars (pad2 d.month) ++
    '-' :: padChars (pad2 d.day)

/-- `adapt_date`: encodes a date as its canonical `YYYY-MM-DD` text
(`date.strftime("%Y-%m-%d")`). -/
def adapt_date (d : Date) : String := String.mk (encodeChars d)

/-- Take up to `n` leading digit characters (the bounded greedy digit run a
`strptime` field consumes). -/
def takeDigits : Nat → List Char → List Char × List Char
  | 0, cs => ([], cs)
  | _ + 1, [] => ([], [])
  | n + 1, c :: cs =>
    if c.isDigit then
      let p := takeDigits n cs
      (c :: p.1, p.2)
    else ([], c :: cs)

theorem takeDigits_append (ds r : List Char)
    (h : ∀ c ∈ ds, c.isDigit = true) :
    takeDigits ds.length (ds ++ r) = (ds, r) := by
  induction ds with
  | nil => simp [takeDigits]
  | cons c cs ih =>
    have hc : c.isDigit = true := h c (List.mem_cons_self c cs)
    simp only [List.length_cons, List.cons_append, takeDigits, hc, if_true,
      List.append_eq]
    rw [ih (fun x hx => h x (List.mem_cons_of_mem c hx))]

/-- Expect a literal dash, return the remainder. -/
def expectDash : List Char → Option (List Char)
  | '-' :: r => some r
  | _ => none

/-- The parse of `convert_date`, i.e. `strptime(s, "%Y-%m-%d")`: exactly four
year digits, dash, one-or-two digit month, dash, one-or-two digit day, end of
input; ranges validated (month 1–12, day within the month, leap-aware). -/
def decodeChars (cs : List Char) : Option Date :=
  match takeDigits 4 cs with
  | (yd, rest1) =>
    if yd.length ≠ 4 then none else
    match expectDash rest1 with
    | none => none
    | some rest2 =>
      match takeDigits 2 rest2 with
      | (md, rest3) =>
        if md.length = 0 then none else
        match expectDash rest3 with
        | none => none
        | some rest4 =>
          match takeDigits 2 rest4 with
          | (dd, rest5) =>
            if dd.length = 0 then none else
            if rest5 ≠ [] then none else
            let y := readNat yd
            let m := readNat md
            let d := readNat dd
            if 1 ≤ m ∧ m ≤ 12 ∧ 1 ≤ d ∧ d ≤ daysInMonth y m then
              some (Date.mk y m d)
            else none

/-- `convert_date`: decodes the persisted text back into a date
(`datetime.strptime(s, "%Y-%m-%d")`), or fails. -/
def convert_date (s : String) : Option Date := decodeChars s.data

/-- Full English month name, as `strftime` `%B`. -/
def monthName : Nat → String
  | 1 => "January"
  | 2 => "February"
  | 3 => "March"
  | 4 => "April"
  | 5 => "May"
  | 6 => "June"
  | 7 => "July"
  | 8 => "August"
  | 9 => "September"
  | 10 => "October"
  | 11 => "November"
  | 12 => "December"
  | _ => ""

/-- `format_date`: the display form `date.strftime('%d %B, %Y')` —
zero-padded two-digit day, full month name, comma, four-digit year. -/
def format_date (d : Date) : String :=
  String.mk (padChars (pad2 d.day)) ++ " " ++ monthName d.month ++ ", " ++
    String.mk (padChars (pad4 d.year))

theorem daysInMonth_le_31 (y m : Nat) : daysInMonth y m ≤ 31 := by
  unfold daysInMonth
  split
  · split <;> omega
  · split <;> omega

/-- Claim C6: for every valid calendar date `d`, decoding the canonical
encoded form gives back the same date: `convert_date (adapt_date d) = some d`. -/
theorem convert_date_adapt_date (d : Date) (h : d.Valid) :
    convert_date (adapt_date d) = some d := by
  obtain ⟨hy1, hy2, hm1, hm2, hd1, hd2⟩ := h
  have hday31 : d.day ≤ 31 := le_trans hd2 (daysInMonth_le_31 _ _)
  have e1 : takeDigits 4 (encodeChars d)
      = (padChars (pad4 d.year),
         '-' :: (padChars (pad2 d.month) ++ '-' :: padChars (pad2 d.day))) := by
    have h4 : (padChars (pad4 d.year)).length = 4 := by simp [padChars, pad4]
    have ht := takeDigits_append (padChars (pad4 d.year))
      ('-' :: (padChars (pad2 d.month) ++ '-' :: padChars (pad2 d.day)))
      (isDigit_padChars_pad4 _)
    rw [h4] at ht
    simpa [encodeChars] using ht
  have e2 : takeDigits 2 (padChars (pad2 d.month) ++ '-' :: padChars (pad2 d.day))
      = (padChars (pad2 d.month), '-' :: padChars (pad2 d.day)) := by
    have h2 : (padChars (pad2 d.month)).length = 2 := by simp [padChars, pad2]
    have ht := takeDigits_append (padChars (pad2 d.month))
      ('-' :: padChars (pad2 d.day)) (isDigit_padChars_pad2 _)
    rw [h2] at ht
    exact ht
  have e3 : takeDigits 2 (padChars (pad2 d.day)) = (padChars (pad2 d.day), []) := by
    have h2 : (padChars (pad2 d.day)).length = 2 := by simp [padChars, pad2]
    have ht := takeDigits_append (padChars (pad2 d.day)) [] (isDigit_padChars_pad2 _)
    rw [h2, List.append_nil] at ht
    exact ht
  show decodeChars (encodeChars d) = some d
  unfold decodeChars
  rw [e1]
  simp only [expectDash, e2, e3, readNat_pad4 d.year (by omega),
    readNat_pad2 d.month (by omega), readNat_pad2 d.day (by omega)]
  simp [padChars, pad4, pad2, hm1, hm2, hd1, hd2]

/-- Witness for claim C6 at the concrete date 2024-03-01. -/
theorem convert_date_adapt_date_witness :
    (Date.mk 2024 3 1).Valid ∧
      convert_date (adapt_date (Date.mk 2024 3 1)) = some (Date.mk 2024 3 1) :=
  ⟨by decide, convert_date_adapt_date (Date.mk 2024 3 1) (by decide)⟩

/-- Claim C7: the code zero-pads the day (`strftime %d`), so 2000-01-01 is
rendered "01 January, 2000", not the documented "1 January, 2000". -/
theorem format_date_zero_pads_day :
    format_date (Date.mk 2000 1 1) = "01 January, 2000" ∧
      format_date (Date.mk 2000 1 1) ≠ "1 January, 2000" := by
  constructor <;> decide

/-- Inverse of `monthName` on the twelve month names. -/
def monthFromName (s : String) : Nat :=
  if s = "January" then 1
  else if s = "February" then 2
  else if s = "March" then 3
  else if s = "April" then 4
  else if s = "May" then 5
  else if s = "June" then 6
  else if s = "July" then 7
  else if s = "August" then 8
  else if s = "September" then 9
  else if s = "October" then 10
  else if s = "November" then 11
  else if s = "December" then 12
  else 0

/-- A parser recovering `(day, month, year)` from a display-date string;
used to show the display form is injective on valid dates. -/
def parseKey (s : String) : Option (Nat × Nat × Nat) :=
  match s.data with
  | c1 :: c2 :: ' ' :: rest =>
    let name := rest.takeWhile (fun c => c ≠ ',')
    let rest2 := rest.dropWhile (fun c => c ≠ ',')
    match rest2 with
    | ',' :: ' ' :: ys =>
      some (10 * digitVal c1 + digitVal c2,
        monthFromName (String.mk name), readNat ys)
    | _ => none
  | _ => none

theorem takeWhile_append_stop {p : Char → Bool} (l : List Char) (x : Char)
    (r : List Char) (hl : ∀ c ∈ l, p c = true) (hx : p x = false) :
    (l ++ x :: r).takeWhile p = l ∧ (l ++ x :: r).dropWhile p = x :: r := by
  induction l with
  | nil => simp [List.takeWhile_cons, List.dropWhile_cons, hx]
  | cons c cs ih =>
    have hc := hl c (List.mem_cons_self c cs)
    have ih2 := ih (fun y hy => hl y (List.mem_cons_of_mem c hy))
    simp [List.takeWhile_cons, List.dropWhile_cons, hc, ih2.1, ih2.2]

theorem monthName_no_comma (m : Nat) (h1 : 1 ≤ m) (h2 : m ≤ 12) :
    ∀ c ∈ (monthName m).data, (decide (c ≠ ',')) = true := by
  interval_cases m <;> decide

theorem monthFromName_monthName (m : Nat) (h1 : 1 ≤ m) (h2 : m ≤ 12) :
    monthFromName (monthName m) = m := by
  interval_cases m <;> decide

theorem parseKey_format_date (d : Date) (h : d.Valid) :
    parseKey (format_date d) = some (d.day, d.month, d.year) := by
  obtain ⟨hy1, hy2, hm1, hm2, hd1, hd2⟩ := h
  have hday : d.day < 100 := by
    have := daysInMonth_le_31 d.year d.month; omega
  have hdata : (format_date d).data
      = Nat.digitChar (d.day / 10 % 10) :: Nat.digitChar (d.day % 10) :: ' ' ::
        ((monthName d.month).data ++ ',' :: ' ' :: padChars (pad4 d.year)) := by
    simp [format_date, padChars, pad2, String.data_append]
  have hsplit := takeWhile_append_stop (p := fun c => decide (c ≠ ','))
    (monthName d.month).data ',' (' ' :: padChars (pad4 d.year))
    (monthName_no_comma d.month hm1 hm2) (by simp)
  have h1 : d.day / 10 % 10 < 10 := Nat.mod_lt _ (by omega)
  have h2 : d.day % 10 < 10 := Nat.mod_lt _ (by omega)
  unfold parseKey
  rw [hdata]
  simp only [hsplit.1, hsplit.2, digitVal_digitChar _ h1, digitVal_digitChar _ h2,
    readNat_pad4 d.year (by omega)]
  rw [show String.mk (monthName d.month).data = monthName d.month from rfl,
    monthFromName_monthName d.month hm1 hm2]
  have : 10 * (d.day / 10 % 10) + d.day % 10 = d.day := by omega
  rw [this]

/-- The display form is injective on valid dates: distinct valid dates never
collapse to the same display string. -/
theorem format_date_inj {a b : Date} (ha : a.Valid) (hb : b.Valid)
    (h : format_date a = format_date b) : a = b := by
  have pa := parseKey_format_date a ha
  have pb := parseKey_format_date b hb
  rw [h, pb] at pa
  injection pa with pa2
  cases a; cases b
  simp only [Prod.mk.injEq] at pa2
  simp only [Date.mk.injEq]
  omega

/-- An event record of the `events` table. -/
structure Event where
  id : Nat
  title : String
  event_date : Date
  category : String
deriving DecidableEq

/-- The `events` table, rows in rowid order. -/
abbrev DB := List Event

/-- Well-formedness of the table: ids strictly increase along rowid order.
Insertion assigns `max id + 1` and deletion filters, so this is invariant. -/
def DBWf (db : DB) : Prop := List.Pairwise (fun a b => a.id < b.id) db

instance (db : DB) : Decidable (DBWf db) := by
  unfold DBWf; infer_instance

/-- The largest id present (sqlite assigns `max rowid + 1` on insert). -/
def maxId (db : DB) : Nat := db.foldr (fun e a => max e.id a) 0

/-- `add_event`: `INSERT INTO events (title, event_date, category)`.
On `sqlite3.Error` the boundary logs and the table is unchanged. -/
def add_event (fail : Bool) (title : String) (event_date : Date)
    (category : String) (db : DB) : DB :=
  if fail then db
  else db ++ [Event.mk (maxId db + 1) title event_date category]

/-- `remove_event`: `DELETE FROM events WHERE id = ?`. -/
def remove_event (fail : Bool) (event_id : Nat) (db : DB) : DB :=
  if fail then db else db.filter (fun e => e.id ≠ event_id)

/-- `update_event_title`: `UPDATE events SET title = ? WHERE id = ?`. -/
def update_event_title (fail : Bool) (event_id : Nat) (new_title : String)
    (db : DB) : DB :=
  if fail then db
  else db.map (fun e =>
    if e.id = event_id then Event.mk e.id new_title e.event_date e.category
    else e)

/-- Stable insertion of an event into a date-sorted list: the new event goes
after every strictly earlier date and before the first equal-or-later one. -/
def insertByDate (e : Event) : List Event → List Event
  | [] => [e]
  | x :: xs =>
    if Date.lt x.event_date e.event_date then x :: insertByDate e xs
    else e :: x :: xs

/-- Stable sort by `event_date` over the rowid-ordered table, modelling
`SELECT * FROM events ORDER BY event_date`. -/
def sortByDate : List Event → List Event
  | [] => []
  | e :: es => insertByDate e (sortByDate es)

/-- `get_events`: the read returns the date-ordered rows, or `None` when the
underlying query raised. -/
def get_events (fail : Bool) (db : DB) : Option (List Event) :=
  if fail then none else some (sortByDate db)

theorem insertByDate_perm (e : Event) (l : List Event) :
    List.Perm (insertByDate e l) (e :: l) := by
  induction l with
  | nil => exact List.Perm.refl _
  | cons x xs ih =>
    unfold insertByDate
    split
    · exact (ih.cons x).trans (List.Perm.swap e x xs)
    · exact List.Perm.refl _

theorem sortByDate_perm (l : List Event) : List.Perm (sortByDate l) l := by
  induction l with
  | nil => exact List.Perm.refl _
  | cons e es ih =>
    exact (insertByDate_perm e (sortByDate es)).trans (ih.cons e)

/-- Event `a` precedes `b` in store query order: strictly earlier date, or
the same date with smaller store-assigned id. -/
def StoreLe (a b : Event) : Prop :=
  Date.lt a.event_date b.event_date ∨
    (a.event_date = b.event_date ∧ a.id < b.id)

instance (a b : Event) : Decidable (StoreLe a b) := by
  unfold StoreLe; infer_instance

theorem StoreLe.date_le {a b : Event} (h : StoreLe a b) :
    Date.le a.event_date b.event_date := by
  rcases h with h | ⟨h, _⟩
  · exact Or.inl h
  · exact Or.inr h

theorem insertByDate_pairwise (e : Event) (l : List Event)
    (hp : List.Pairwise StoreLe l) (hid : ∀ x ∈ l, e.id < x.id) :
    List.Pairwise StoreLe (insertByDate e l) := by
  induction l with
  | nil => simp [insertByDate]
  | cons x xs ih =>
    rw [List.pairwise_cons] at hp
    obtain ⟨hx, hxs⟩ := hp
    unfold insertByDate
    split
    case isTrue hlt =>
      rw [List.pairwise_cons]
      refine ⟨fun y hy => ?_, ih hxs (fun z hz => hid z (List.mem_cons_of_mem x hz))⟩
      rcases List.mem_cons.mp ((insertByDate_perm e xs).mem_iff.mp hy) with rfl | hy2
      · exact Or.inl hlt
      · exact hx y hy2
    case isFalse hnlt =>
      have hex : Date.le e.event_date x.event_date := Date.not_lt.mp hnlt
      rw [List.pairwise_cons]
      refine ⟨fun y hy => ?_, by rw [List.pairwise_cons]; exact ⟨hx, hxs⟩⟩
      rcases List.mem_cons.mp hy with rfl | hy2
      · rcases hex with h3 | h3
        · exact Or.inl h3
        · exact Or.inr ⟨h3, hid y (List.mem_cons_self y xs)⟩
      · have hey : Date.le e.event_date y.event_date :=
          Date.le_trans hex (hx y hy2).date_le
        rcases hey with h3 | h3
        · exact Or.inl h3
        · exact Or.inr ⟨h3, hid y (List.mem_cons_of_mem x hy2)⟩

theorem sortByDate_pairwise (db : DB) (h : DBWf db) :
    List.Pairwise StoreLe (sortByDate db) := by
  induction db with
  | nil => simp [sortByDate]
  | cons e es ih =>
    unfold DBWf at h
    rw [List.pairwise_cons] at h
    obtain ⟨hid, hes⟩ := h
    exact insertByDate_pairwise e (sortByDate es) (ih hes)
      (fun x hx => hid x ((sortByDate_perm es).mem_iff.mp hx))

/-- Claim C1: on a well-formed store, `get_events` returns the full event
set — a permutation of the table — sorted by `event_date` ascending, ties
broken by store-assigned `id` ascending. -/
theorem get_events_sorted (db : DB) (h : DBWf db) :
    get_events false db = some (sortByDate db) ∧
      List.Perm (sortByDate db) db ∧ List.Pairwise StoreLe (sortByDate db) :=
  ⟨rfl, sortByDate_perm db, sortByDate_pairwise db h⟩

/-- A concrete two-event store whose events share a date. -/
def dbTwo : DB :=
  [Event.mk 1 "standup" (Date.mk 2024 3 1) "Work",
   Event.mk 2 "review" (Date.mk 2024 3 1) "Work"]

/-- Witness for claim C1 on the concrete store `dbTwo`. -/
theorem get_events_sorted_witness :
    DBWf dbTwo ∧
      (get_events false dbTwo = some (sortByDate dbTwo) ∧
        List.Perm (sortByDate dbTwo) dbTwo ∧
        List.Pairwise StoreLe (sortByDate dbTwo)) :=
  ⟨by decide, get_events_sorted dbTwo (by decide)⟩

/-- Claim C2 counterexample: a failed read does not surface as an empty
result sequence — `get_events` yields `none` (Python `None`), not `some []`. -/
theorem failed_read_not_empty_list :
    get_events true ([] : DB) ≠ some [] := by decide

/-- Claim C2 (amended): a storage failure is absorbed at each operation's
boundary: every write is a no-op on the table and nothing propagates, while
a read returns the null result `none` rather than an empty sequence. -/
theorem storage_failure_noop_write_none_read (db : DB) (title : String)
    (d : Date) (category : String) (event_id : Nat) (new_title : String) :
    add_event true title d category db = db ∧
      remove_event true event_id db = db ∧
      update_event_title true event_id new_title db = db ∧
      get_events true db = none :=
  ⟨rfl, rfl, rfl, rfl⟩

/-- Outcome reported by the add-event UI boundary. -/
inductive AddOutcome
  | success
  | titleRequired
deriving DecidableEq

/-- `CalendarApp.add_event`: inserts only when the entered title is
non-empty (`if title:`), otherwise shows the "Event title is required!"
warning and touches nothing. -/
def CalendarAppAddEvent (fail : Bool) (title : String) (selected_date : Date)
    (category : String) (db : DB) : DB × AddOutcome :=
  if title ≠ "" then
    (add_event fail title selected_date category db, AddOutcome.success)
  else (db, AddOutcome.titleRequired)

/-- Claim C3: adding with an empty title fails with the validation warning
and creates no record, for every date, category and store state. -/
theorem add_event_empty_title_rejected (fail : Bool) (d : Date)
    (category : String) (db : DB) :
    CalendarAppAddEvent fail "" d category db = (db, AddOutcome.titleRequired) := by
  simp [CalendarAppAddEvent]

/-- A concrete one-event store. -/
def dbOne : DB := [Event.mk 1 "standup" (Date.mk 2024 3 1) "Work"]

/-- Claim C8 counterexample: the store-level `update_event_title` performs no
validation — updating id 1 with an empty new title changes the persisted
state (the title becomes empty) and raises no error. -/
theorem update_event_title_empty_changes_state :
    update_event_title false 1 "" dbOne ≠ dbOne := by decide

/-- `EventWidget.edit_event`: the edit dialog calls the store only when the
dialog is confirmed and the new title is non-empty (`if ok and new_title:`). -/
def EventWidget.edit_event (fail : Bool) (event_id : Nat) (ok : Bool)
    (new_title : String) (db : DB) : DB :=
  if ok = true ∧ new_title ≠ "" then
    update_event_title fail event_id new_title db
  else db

/-- Claim C8 (amended): with an empty new title the edit boundary makes no
store call, so the persisted state is unchanged, but no validation error is
signalled; the store operation itself does not validate the title. -/
theorem edit_event_empty_title_silent_noop (fail : Bool) (event_id : Nat)
    (ok : Bool) (db : DB) :
    EventWidget.edit_event fail event_id ok "" db = db := by
  simp [EventWidget.edit_event]

theorem filter_ne_length_ge (db : DB) (event_id : Nat) (h : DBWf db) :
    db.length ≤ (db.filter (fun e => e.id ≠ event_id)).length + 1 := by
  induction db with
  | nil => simp
  | cons x xs ih =>
    unfold DBWf at h
    rw [List.pairwise_cons] at h
    obtain ⟨hx, hxs⟩ := h
    have ihx := ih hxs
    simp only [List.filter_cons]
    by_cases hxe : x.id = event_id
    · have hall : List.filter (fun e => decide (e.id ≠ event_id)) xs = xs := by
        apply List.filter_eq_self.mpr
        intro y hy
        have hlt := hx y hy
        have hne : y.id ≠ event_id := by omega
        simpa using hne
      have hfx : decide (x.id ≠ event_id) = false := by simp [hxe]
      rw [hfx]
      simp only [Bool.false_eq_true, if_false]
      rw [hall]
      simp
    · have hfx : decide (x.id ≠ event_id) = true := by simp [hxe]
      simp only [hfx, if_true, List.length_cons]
      omega

/-- Claim C10: `remove_event` deletes at most the single record with the
given id — an event survives iff it was present with a different id, all its
fields unchanged, and at most one row disappears. -/
theorem remove_event_frame (db : DB) (event_id : Nat) (h : DBWf db) :
    (∀ e : Event, e ∈ remove_event false event_id db ↔
        (e ∈ db ∧ e.id ≠ event_id)) ∧
      db.length ≤ (remove_event false event_id db).length + 1 := by
  constructor
  · intro e
    simp [remove_event, List.mem_filter]
  · simpa [remove_event] using filter_ne_length_ge db event_id h

/-- Witness for claim C10 on the concrete store `dbTwo`, removing id 1. -/
theorem remove_event_frame_witness :
    DBWf dbTwo ∧
      ((∀ e : Event, e ∈ remove_event false 1 dbTwo ↔
          (e ∈ dbTwo ∧ e.id ≠ 1)) ∧
        dbTwo.length ≤ (remove_event false 1 dbTwo).length + 1) :=
  ⟨by decide, remove_event_frame dbTwo 1 (by decide)⟩

/-- A filter specification: the advanced-search dialog's optional category
and date-range fields plus the search box's free-text substring. -/
structure FilterSpec where
  search : Option String
  category : Option String
  from_date : Option Date
  to_date : Option Date
deriving DecidableEq

/-- Substring containment, Python's `needle in hay` on strings. -/
def strContainsB (hay needle : String) : Bool :=
  decide (List.IsInfix needle.data hay.data)

/-- The search-box test of `refresh_events`: the lowered search text must be
a substring of the lowered event title. -/
def search_keep (search_text : String) (e : Event) : Bool :=
  strContainsB (e.title.toLower) (search_text.toLower)

/-- The `continue` chain of `apply_advanced_search`: an event is skipped when
a present category differs, a present lower bound exceeds its date, or a
present upper bound lies below its date; otherwise it is kept. -/
def advanced_keep (filters : FilterSpec) (e : Event) : Bool :=
  if (match filters.category with
      | some c => decide (c ≠ e.category)
      | none => false) then false
  else if (match filters.from_date with
      | some d => decide (Date.lt e.event_date d)
      | none => false) then false
  else if (match filters.to_date with
      | some d => decide (Date.lt d e.event_date)
      | none => false) then false
  else true

/-- The query/filter engine over the full event sequence: a linear scan
keeping the events that pass the search test and the advanced chain. -/
def filterEvents (fs : FilterSpec) (l : List Event) : List Event :=
  l.filter (fun e =>
    (match fs.search with
     | some s => search_keep s e
     | none => true) && advanced_keep fs e)

/-- The specification's matching predicate, stated as the spec words it: the
conjunction of all present predicates — case-insensitive title substring,
exact category match, inclusive date bounds — an absent field imposing no
constraint. -/
def specMatches (fs : FilterSpec) (e : Event) : Bool :=
  (match fs.search with
   | some s => strContainsB (e.title.toLower) (s.toLower)
   | none => true) &&
  (match fs.category with
   | some c => decide (c = e.category)
   | none => true) &&
  (match fs.from_date with
   | some d => decide (Date.le d e.event_date)
   | none => true) &&
  (match fs.to_date with
   | some d => decide (Date.le e.event_date d)
   | none => true)

/-- The all-absent filter specification. -/
def emptySpec : FilterSpec := FilterSpec.mk none none none none

theorem skip_eq_general (b x : Bool) :
    (if b = true then false else x) = (!b && x) := by
  cases b <;> simp

theorem not_decide_ne {α : Type} [DecidableEq α] (a b : α) :
    (!(decide (a ≠ b))) = decide (a = b) := by
  by_cases h : a = b <;> simp [h]

theorem Date.lt_not_le {a b : Date} (h : Date.lt a b) : ¬ Date.le b a := by
  cases a; cases b
  simp only [Date.lt, Date.le, Date.mk.injEq] at *
  omega

theorem not_decide_lt_date (a b : Date) :
    (!(decide (Date.lt a b))) = decide (Date.le b a) := by
  by_cases h : Date.lt a b
  · simp [h, Date.lt_not_le h]
  · simp [h, Date.not_lt.mp h]

theorem keep_eq_specMatches (fs : FilterSpec) (e : Event) :
    ((match fs.search with
      | some s => search_keep s e
      | none => true) && advanced_keep fs e) = specMatches fs e := by
  obtain ⟨os, oc, od1, od2⟩ := fs
  cases os <;> cases oc <;> cases od1 <;> cases od2 <;>
    simp only [advanced_keep, specMatches, search_keep, skip_eq_general,
      not_decide_ne, not_decide_lt_date, Bool.not_false, Bool.and_true,
      Bool.true_and, Bool.and_assoc]

/-- Claim C4: the engine keeps exactly the events satisfying the conjunction
of all present predicates (an absent field imposes no constraint), the
all-absent specification returns the input unchanged, and the output
preserves the input's relative order (it is a sublist of the input). -/
theorem filterEvents_conjunction (fs : FilterSpec) (l : List Event) :
    filterEvents fs l = l.filter (specMatches fs) ∧
      List.Sublist (filterEvents fs l) l ∧
      filterEvents emptySpec l = l := by
  refine ⟨?_, ?_, ?_⟩
  · unfold filterEvents
    exact List.filter_congr (fun e _ => keep_eq_specMatches fs e)
  · exact List.filter_sublist l
  · unfold filterEvents emptySpec
    simp [advanced_keep]

/-- Claim C9: the filter is idempotent — filtering an already-filtered
sequence with the same specification changes nothing. -/
theorem filterEvents_idempotent (fs : FilterSpec) (l : List Event) :
    filterEvents fs (filterEvents fs l) = filterEvents fs l := by
  unfold filterEvents
  apply List.filter_eq_self.mpr
  intro e he
  exact (List.mem_filter.mp he).2

/-- A list entry rendered for an event: lowered title, id, category. -/
abbrev Entry := String × Nat × String

/-- The grouping key: the display-date string of the event's date. -/
def eventKey (e : Event) : String := format_date e.event_date

/-- The tuple appended for an event: `(event_title, event[0], category)`
with the title lowered. -/
def eventEntry (e : Event) : Entry := (e.title.toLower, e.id, e.category)

/-- The grouped structure: a Python dict in insertion order, one
`(key, entries)` pair per key. -/
abbrev Groups := List (String × List Entry)

/-- `grouped_events.setdefault(key, []).append(entry)`: append the entry to
the first group carrying this key, or append a fresh group at the end. -/
def groupInsert (k : String) (v : Entry) : Groups → Groups
  | [] => [(k, [v])]
  | (k2, vs) :: rest =>
    if k2 = k then (k2, vs ++ [v]) :: rest
    else (k2, vs) :: groupInsert k v rest

/-- The grouping loop shared by `refresh_events` and
`apply_advanced_search` (once their filters have kept an event). -/
def groupEvents (l : List Event) : Groups :=
  l.foldl (fun acc e => groupInsert (eventKey e) (eventEntry e) acc) []

/-- Entries stored under the first group with key `k` (`[]` when absent). -/
def findGrp (k : String) : Groups → List Entry
  | [] => []
  | (k2, vs) :: rest => if k2 = k then vs else findGrp k rest

/-- The event keys in first-occurrence order, given the keys already seen. -/
def firstKeys (seen : List String) : List Event → List String
  | [] => []
  | e :: es =>
    if eventKey e ∈ seen then firstKeys seen es
    else eventKey e :: firstKeys (eventKey e :: seen) es

theorem groupInsert_keys (k : String) (v : Entry) (g : Groups) :
    (groupInsert k v g).map Prod.fst =
      if k ∈ g.map Prod.fst then g.map Prod.fst
      else g.map Prod.fst ++ [k] := by
  induction g with
  | nil => simp [groupInsert]
  | cons p rest ih =>
    obtain ⟨k2, vs⟩ := p
    by_cases h : k2 = k
    · subst h
      simp [groupInsert]
    · by_cases hm : k ∈ rest.map Prod.fst <;>
        simp [groupInsert, h, ih, hm, Ne.symm h]

theorem findGrp_groupInsert (k k2 : String) (v : Entry) (g : Groups) :
    findGrp k (groupInsert k2 v g) =
      if k2 = k then findGrp k g ++ [v] else findGrp k g := by
  induction g with
  | nil => by_cases h : k2 = k <;> simp [groupInsert, findGrp, h]
  | cons p rest ih =>
    obtain ⟨k3, vs⟩ := p
    by_cases h3 : k3 = k2
    · subst h3
      by_cases h : k3 = k <;> simp [groupInsert, findGrp, h]
    · by_cases h : k3 = k
      · subst h
        have hk2 : ¬ k2 = k3 := fun he => h3 he.symm
        simp [groupInsert, findGrp, h3, hk2]
      · simp [groupInsert, findGrp, h3, h, ih]

theorem findGrp_groupFold (l : List Event) (acc : Groups) (k : String) :
    findGrp k
        (l.foldl (fun a e => groupInsert (eventKey e) (eventEntry e) a) acc)
      = findGrp k acc ++ (l.filter (fun e => eventKey e = k)).map eventEntry := by
  induction l generalizing acc with
  | nil => simp
  | cons e es ih =>
    simp only [List.foldl_cons, List.filter_cons]
    rw [ih, findGrp_groupInsert]
    by_cases h : eventKey e = k
    · simp [h]
    · simp [h]

theorem firstKeys_congr (s1 s2 : List String) (l : List Event)
    (h : ∀ x, x ∈ s1 ↔ x ∈ s2) : firstKeys s1 l = firstKeys s2 l := by
  induction l generalizing s1 s2 with
  | nil => simp [firstKeys]
  | cons e es ih =>
    simp only [firstKeys]
    by_cases hm : eventKey e ∈ s1
    · rw [if_pos hm, if_pos ((h _).mp hm)]
      exact ih s1 s2 h
    · rw [if_neg hm, if_neg (fun hx => hm ((h _).mpr hx))]
      congr 1
      exact ih _ _ (fun x => by simp [h x])

theorem keys_groupFold (l : List Event) (acc : Groups) :
    (l.foldl (fun a e => groupInsert (eventKey e) (eventEntry e) a) acc).map
        Prod.fst
      = acc.map Prod.fst ++ firstKeys (acc.map Prod.fst) l := by
  induction l generalizing acc with
  | nil => simp [firstKeys]
  | cons e es ih =>
    simp only [List.foldl_cons, firstKeys]
    by_cases h : eventKey e ∈ acc.map Prod.fst
    · rw [ih, groupInsert_keys, if_pos h, if_pos h]
    · rw [ih, groupInsert_keys, if_neg h, if_neg h,
        firstKeys_congr (acc.map Prod.fst ++ [eventKey e])
          (eventKey e :: acc.map Prod.fst) es
          (fun x => by simp [or_comm])]
      simp

theorem firstKeys_nodup_aux (seen : List String) (l : List Event) :
    (firstKeys seen l).Nodup ∧ ∀ x ∈ firstKeys seen l, x ∉ seen := by
  induction l generalizing seen with
  | nil => simp [firstKeys]
  | cons e es ih =>
    simp only [firstKeys]
    by_cases hm : eventKey e ∈ seen
    · rw [if_pos hm]
      exact ih seen
    · rw [if_neg hm]
      obtain ⟨hnd, hns⟩ := ih (eventKey e :: seen)
      refine ⟨?_, ?_⟩
      · rw [List.nodup_cons]
        exact ⟨fun hx => (hns _ hx) (List.mem_cons_self _ _), hnd⟩
      · intro x hx
        rcases List.mem_cons.mp hx with rfl | hx2
        · exact hm
        · exact fun hxs => (hns x hx2) (List.mem_cons_of_mem _ hxs)

theorem firstKeys_complete (seen : List String) (l : List Event) :
    ∀ e ∈ l, eventKey e ∈ seen ∨ eventKey e ∈ firstKeys seen l := by
  induction l generalizing seen with
  | nil => simp
  | cons x xs ih =>
    intro e he
    simp only [firstKeys]
    rcases List.mem_cons.mp he with rfl | he2
    · by_cases hm : eventKey e ∈ seen
      · exact Or.inl hm
      · right
        rw [if_neg hm]
        exact List.mem_cons_self _ _
    · by_cases hm : eventKey x ∈ seen
      · rw [if_pos hm]
        exact ih seen e he2
      · rw [if_neg hm]
        rcases ih (eventKey x :: seen) e he2 with h | h
        · rcases List.mem_cons.mp h with heq | hseen
          · right
            rw [heq]
            exact List.mem_cons_self _ _
          · exact Or.inl hseen
        · right
          exact List.mem_cons_of_mem _ h

theorem findGrp_of_mem (g : Groups) (hnd : (g.map Prod.fst).Nodup)
    (p : String × List Entry) (hp : p ∈ g) : findGrp p.1 g = p.2 := by
  induction g with
  | nil => cases hp
  | cons q rest ih =>
    obtain ⟨k2, vs⟩ := q
    rw [List.map_cons, List.nodup_cons] at hnd
    obtain ⟨hk, hnd2⟩ := hnd
    rcases List.mem_cons.mp hp with rfl | hp2
    · simp [findGrp]
    · have h5 := List.mem_map_of_mem Prod.fst hp2
      have hne : k2 ≠ p.1 := by
        intro he
        apply hk
        rw [he]
        exact h5
      simp [findGrp, hne, ih hnd2 hp2]

/-- Claim C5: `groupEvents` partitions its input by display date — each
output group holds exactly the entries of the input events carrying its key,
in input order; group keys are distinct and appear in first-occurrence
order; every input event's key has a group; and on valid dates two events
share a key exactly when they share a date value. -/
theorem groupEvents_partition_by_date (l : List Event)
    (hv : ∀ e ∈ l, e.event_date.Valid) :
    (∀ g ∈ groupEvents l,
        g.2 = (l.filter (fun e => eventKey e = g.1)).map eventEntry) ∧
      ((groupEvents l).map Prod.fst).Nodup ∧
      (groupEvents l).map Prod.fst = firstKeys [] l ∧
      (∀ e ∈ l, eventKey e ∈ (groupEvents l).map Prod.fst) ∧
      (∀ e1 ∈ l, ∀ e2 ∈ l,
        (eventKey e1 = eventKey e2 ↔ e1.event_date = e2.event_date)) := by
  have hkeys : (groupEvents l).map Prod.fst = firstKeys [] l := by
    simpa using keys_groupFold l []
  have hnd : ((groupEvents l).map Prod.fst).Nodup := by
    rw [hkeys]
    exact (firstKeys_nodup_aux [] l).1
  refine ⟨?_, hnd, hkeys, ?_, ?_⟩
  · intro g hg
    have hfind := findGrp_of_mem (groupEvents l) hnd g hg
    rw [← hfind]
    simpa [findGrp] using findGrp_groupFold l [] g.1
  · intro e he
    rw [hkeys]
    rcases firstKeys_complete [] l e he with h | h
    · cases h
    · exact h
  · intro e1 h1 e2 h2
    constructor
    · intro hk
      exact format_date_inj (hv e1 h1) (hv e2 h2) hk
    · intro hd
      unfold eventKey
      rw [hd]

/-- The spec's two-date scenario: two events on 2024-03-01, one on
2024-03-02. -/
def eventsThree : List Event :=
  [Event.mk 1 "standup" (Date.mk 2024 3 1) "Work",
   Event.mk 2 "review" (Date.mk 2024 3 1) "Work",
   Event.mk 3 "seminar" (Date.mk 2024 3 2) "Education"]

/-- Witness for claim C5 on the concrete three-event sequence. -/
theorem groupEvents_partition_by_date_witness :
    (∀ e ∈ eventsThree, e.event_date.Valid) ∧
      ((∀ g ∈ groupEvents eventsThree,
          g.2 = (eventsThree.filter
            (fun e => eventKey e = g.1)).map eventEntry) ∧
        ((groupEvents eventsThree).map Prod.fst).Nodup ∧
        (groupEvents eventsThree).map Prod.fst = firstKeys [] eventsThree ∧
        (∀ e ∈ eventsThree,
          eventKey e ∈ (groupEvents eventsThree).map Prod.fst) ∧
        (∀ e1 ∈ eventsThree, ∀ e2 ∈ eventsThree,
          (eventKey e1 = eventKey e2 ↔ e1.event_date = e2.event_date))) :=
  ⟨by decide, groupEvents_partition_by_date eventsThree (by decide)⟩

/-- The fused loop of `apply_advanced_search`: each event either fails one of
the `continue` tests or is grouped under its display date. -/
def apply_advanced_search (filters : FilterSpec) (l : List Event) : Groups :=
  l.foldl (fun acc e =>
    if advanced_keep filters e then
      groupInsert (eventKey e) (eventEntry e) acc
    else acc) []

/-- The fused loop of `refresh_events`: the lowered search text must occur in
the lowered title, then the event is grouped under its display date. -/
def refresh_events (search_text : String) (l : List Event) : Groups :=
  l.foldl (fun acc e =>
    if search_keep search_text e then
      groupInsert (eventKey e) (eventEntry e) acc
    else acc) []

theorem fused_fold_eq (p : Event → Bool) (l : List Event) (acc : Groups) :
    l.foldl (fun a e =>
        if p e then groupInsert (eventKey e) (eventEntry e) a else a) acc
      = (l.filter p).foldl
          (fun a e => groupInsert (eventKey e) (eventEntry e) a) acc := by
  induction l generalizing acc with
  | nil => rfl
  | cons e es ih =>
    simp only [List.foldl_cons, List.filter_cons]
    by_cases h : p e = true
    · rw [if_pos h, if_pos h, List.foldl_cons, ih]
    · rw [if_neg h, if_neg h, ih]

/-- `apply_advanced_search` is: filter by the advanced chain, then group. -/
theorem apply_advanced_search_eq (filters : FilterSpec) (l : List Event) :
    apply_advanced_search filters l
      = groupEvents (l.filter (advanced_keep filters)) :=
  fused_fold_eq (advanced_keep filters) l []

/-- `refresh_events` is: filter by the search test, then group. -/
theorem refresh_events_eq (search_text : String) (l : List Event) :
    refresh_events search_text l
      = groupEvents (l.filter (search_keep search_text)) :=
  fused_fold_eq (search_keep search_text) l []
